import Mathlib

/-!
# Verification of the `ellevate` matching core

A shallow embedding of `src/match_maker_automated.py` (and the history-update
rows built in `src/app.py`), together with proofs of the specified properties.

Python dictionaries keyed by strings are modelled as association lists with
unique keys: `dict.get(k, [])` becomes `histGet` (first-match lookup) and
`dict.setdefault(k, []).append(v)` becomes `histAppend` (update the entry in
place, or add a fresh entry at the end).  Python *sets* have an unspecified
iteration order (string hashing is randomized per process), so every place the
source linearizes a set (`for pair in matches`,
`list(all_emails - matched_emails)`) is modelled by an explicit list parameter
standing for one possible enumeration of that set; theorems quantify over all
valid enumerations.
-/

/-- A participant record: the `email` identifier, the display `name`, and the
arbitrary additional fields of the row (preserved untouched by the pipeline). -/
structure Participant where
  email : String
  name : String
  extra : List (String × String)
deriving Repr, DecidableEq

abbrev Pair := String × String

/-- A raw row of the `MatchHistory` tab: `row.get('Person A (Email)')` and
`row.get('Person B (Email)')` (absent key = `none`; Python's truthiness test
also rejects the empty string). -/
structure HistRow where
  pa : Option String
  pb : Option String
deriving Repr, DecidableEq

/-- The history dictionary `Dict[str, List[str]]`, as an association list
with unique keys. -/
abbrev HistDict := List (String × List String)

/-- Python's `history.get(k, [])`: first-match lookup. -/
def histGet : HistDict → String → List String
  | [], _ => []
  | kv :: tl, k => if kv.1 = k then kv.2 else histGet tl k

/-- Python's `history.setdefault(k, []).append(v)`: append `v` to the entry for `k`,
creating the entry at the end of the dictionary if absent. -/
def histAppend : HistDict → String → String → HistDict
  | [], k, v => [(k, [v])]
  | kv :: tl, k, v =>
    if kv.1 = k then (kv.1, kv.2 ++ [v]) :: tl else kv :: histAppend tl k v

/-- One iteration of the loop body of `transform_sheet_history_to_dict`:
the row's two emails are inserted symmetrically when both are present and
non-empty (Python truthiness of `p1 and p2`); otherwise the row is skipped. -/
def historyStep (d : HistDict) (row : HistRow) : HistDict :=
  match row.pa, row.pb with
  | some p1, some p2 =>
    if p1 ≠ "" ∧ p2 ≠ "" then histAppend (histAppend d p1 p2) p2 p1 else d
  | _, _ => d

/-- The function `transform_sheet_history_to_dict`: turns the `MatchHistory` rows into the
lookup dictionary. -/
def transform_sheet_history_to_dict (history_rows : List HistRow) : HistDict :=
  history_rows.foldl historyStep []

/-- The history index is symmetric: `A` lists `B` iff `B` lists `A`. -/
def SymmHist (d : HistDict) : Prop :=
  ∀ a b : String, a ∈ histGet d b ↔ b ∈ histGet d a

/-!
## Compatibility graph builder (`build_compatibility_graph`)
-/

/-- The compatibility graph: nodes are the active participants' emails
(each carrying a `name` attribute, irrelevant to matching), edges the pairs
added by the builder's nested loop, stored as the ordered tuples
`(email1, email2)` with `email1` occurring earlier in the user list. -/
structure Graph where
  nodes : List String
  edges : List Pair
deriving Repr, DecidableEq

/-- The nested loop of `build_compatibility_graph`: for each position `i` and
each later position `j`, add the edge `(emails[i], emails[j])` unless
`emails[j] ∈ history.get(emails[i], [])`. -/
def buildEdges (history : HistDict) : List String → List Pair
  | [] => []
  | e1 :: rest =>
    (rest.filter (fun e2 => !(decide (e2 ∈ histGet history e1)))).map
        (fun e2 => (e1, e2)) ++
      buildEdges history rest

/-- The function `build_compatibility_graph`. -/
def build_compatibility_graph (users : List Participant) (history : HistDict) :
    Graph :=
  { nodes := users.map (·.email)
    edges := buildEdges history (users.map (·.email)) }

/-- Undirected edge membership (networkx graphs are undirected). -/
def hasEdge (G : Graph) (a b : String) : Prop :=
  (a, b) ∈ G.edges ∨ (b, a) ∈ G.edges

instance (G : Graph) (a b : String) : Decidable (hasEdge G a b) := by
  unfold hasEdge; infer_instance

/-!
## Maximum matching solver (`find_maximum_matching`)
-/

/-- Two pairs share no endpoint. -/
def PairDisj (p q : Pair) : Prop :=
  p.1 ≠ q.1 ∧ p.1 ≠ q.2 ∧ p.2 ≠ q.1 ∧ p.2 ≠ q.2

instance (p q : Pair) : Decidable (PairDisj p q) := by
  unfold PairDisj; infer_instance

/-- A sub-collection of the stored edge list whose members are pairwise
endpoint-disjoint: a matching drawn from the stored edges. -/
def isMatchingIn (edges M : List Pair) : Prop :=
  (∀ p ∈ M, p ∈ edges) ∧ M.Pairwise PairDisj

instance (edges M : List Pair) : Decidable (isMatchingIn edges M) := by
  unfold isMatchingIn; infer_instance

/-- Lexicographic comparison of code-point sequences: Python's `<` on
strings. -/
def charListLt : List Char → List Char → Bool
  | [], [] => false
  | [], _ :: _ => true
  | _ :: _, [] => false
  | c :: cs, d :: ds =>
    if c.toNat < d.toNat then true
    else if d.toNat < c.toNat then false
    else charListLt cs ds

/-- Python's `<` on strings, on the underlying character lists. -/
def strLt (a b : String) : Bool := charListLt a.data b.data

/-- Python's `tuple(sorted([n1, n2]))`: normalize a pair to nondecreasing order. -/
def sortPair (p : Pair) : Pair :=
  if strLt p.2 p.1 then (p.2, p.1) else p

/-- Modelled from the spec: the `networkx.max_weight_matching(G,
maxcardinality=True)` call (third-party library code, not part of this
repository).  Per spec §4.3 the contract is purely maximum-cardinality
matching with arbitrary tie-breaking, so the call is modelled by an
exhaustive search: among all sub-collections of the edge list that form a
matching, pick one of maximum cardinality. -/
def maxMatchingRaw (edges : List Pair) : List Pair :=
  (((edges.sublists).filter
        (fun M => decide (isMatchingIn edges M))).argmax
      List.length).getD []

/-- The function `find_maximum_matching`: the (modelled) networkx call, each returned pair
normalized with `tuple(sorted([n1, n2]))`. -/
def find_maximum_matching (G : Graph) : List Pair :=
  (maxMatchingRaw G.edges).map sortPair

/-!
## Odd-one-out resolver (`create_triad`)
-/

/-- The function `create_triad(matches, all_users, history)`.

The source computes `unmatched = list(all_emails - matched_emails)` from
`all_users` and iterates over the set `matches`; both linearize Python sets,
whose iteration order is unspecified.  They are modelled by the explicit
parameters `matchesL` (an enumeration of the matching set, also used by the
`for pair in matches` loop and the `list(matches)[0]` fallback) and
`unmatchedL` (an enumeration of `all_emails - matched_emails`); theorems tie
them to the sets they enumerate. -/
def create_triad (matchesL : List Pair) (unmatchedL : List String)
    (history : HistDict) : Option (String × String × String) :=
  match unmatchedL with
  | [] => none
  | u :: _ =>
    match matchesL.find? (fun p =>
        !(decide (p.1 ∈ histGet history u)) &&
        !(decide (p.2 ∈ histGet history u))) with
    | some p => some (p.1, p.2, u)
    | none =>
      match matchesL with
      | [] => none
      | p :: _ => some (p.1, p.2, u)

/-- All emails occurring in some pair of the matching
(`{email for pair in matches for email in pair}`). -/
def matchedEmails (matchesL : List Pair) : List String :=
  matchesL.foldr (fun p acc => p.1 :: p.2 :: acc) []

/-!
## Result formatter (`format_matches_for_tray`)
-/

/-- Python's `lookup = \x7bu['email']: u for u in users\x7d` followed by `lookup[e]`: the
*last* record with the given email wins (later dict insertions overwrite),
and a missing email raises `KeyError`, modelled as `none`. -/
def plookup (users : List Participant) (e : String) : Option Participant :=
  users.reverse.find? (fun u => u.email == e)

/-- An output record: `match_type` is `"pair"` or `"triad"`; `person_c` is
present exactly on triad records. -/
structure OutputRecord where
  match_type : String
  person_a : Participant
  person_b : Participant
  person_c : Option Participant
deriving Repr, DecidableEq

/-- The `for email1, email2 in matches` loop of `format_matches_for_tray`:
one pair record per matching pair, `KeyError` (= `none`) aborting the run. -/
def formatPairs (users : List Participant) : List Pair → Option (List OutputRecord)
  | [] => some []
  | p :: rest =>
    match plookup users p.1, plookup users p.2, formatPairs users rest with
    | some a, some b, some recs =>
      some ({ match_type := "pair", person_a := a, person_b := b,
              person_c := none } :: recs)
    | _, _, _ => none

/-- The function `format_matches_for_tray(matches, triad, users)`. -/
def format_matches_for_tray (matchesL : List Pair)
    (triad : Option (String × String × String)) (users : List Participant) :
    Option (List OutputRecord) :=
  match formatPairs users matchesL, triad with
  | none, _ => none
  | some precs, none => some precs
  | some precs, some t =>
    match plookup users t.1, plookup users t.2.1, plookup users t.2.2 with
    | some a, some b, some c =>
      some (precs ++ [{ match_type := "triad", person_a := a, person_b := b,
                        person_c := some c }])
    | _, _, _ => none

/-!
## Main workflow (`run_matching_workflow`)
-/

/-- The function `run_matching_workflow(active_participants, raw_history)`.

As in `create_triad`, the enumeration `matchesL` of the pair set produced by
`find_maximum_matching` and the enumeration `unmatchedL` of the set difference
`all_emails - matched_emails` are explicit parameters (Python set iteration
order is unspecified); theorems tie them to the sets they enumerate.  When the
participant count is odd and a triad forms, the pair converted into the triad
is removed (`matches.remove(tuple(sorted([triad[0], triad[1]])))`). -/
def run_matching_workflow (active_participants : List Participant)
    (raw_history : List HistRow) (matchesL : List Pair)
    (unmatchedL : List String) : Option (List OutputRecord) :=
  let formatted_history := transform_sheet_history_to_dict raw_history
  let triad : Option (String × String × String) :=
    if active_participants.length % 2 ≠ 0 then
      create_triad matchesL unmatchedL formatted_history
    else none
  match triad with
  | some t =>
    format_matches_for_tray (matchesL.erase (sortPair (t.1, t.2.1))) (some t)
      active_participants
  | none => format_matches_for_tray matchesL none active_participants

/-!
## Hypothesis predicates used by the theorems
-/

/-- Predicate: `matchesL` is a valid enumeration of a set of pairs that the solver stage
can hand to the rest of the workflow: no repetitions, every pair an edge of
`G` stored in sorted order, and the pairs pairwise endpoint-disjoint. -/
def WellFormedMatching (G : Graph) (matchesL : List Pair) : Prop :=
  matchesL.Nodup ∧
  (∀ p ∈ matchesL, hasEdge G p.1 p.2 ∧ p = sortPair p) ∧
  matchesL.Pairwise PairDisj

instance (G : Graph) (matchesL : List Pair) :
    Decidable (WellFormedMatching G matchesL) := by
  unfold WellFormedMatching; infer_instance

/-- Predicate: `unmatchedL` is a valid enumeration of `all_emails - matched_emails`. -/
def IsUnmatchedEnum (users : List Participant) (matchesL : List Pair)
    (unmatchedL : List String) : Prop :=
  unmatchedL.Nodup ∧
  (∀ x ∈ unmatchedL, x ∈ users.map (·.email) ∧ x ∉ matchedEmails matchesL) ∧
  (∀ x ∈ users.map (·.email), x ∉ matchedEmails matchesL → x ∈ unmatchedL)

instance (users : List Participant) (matchesL : List Pair)
    (unmatchedL : List String) :
    Decidable (IsUnmatchedEnum users matchesL unmatchedL) := by
  unfold IsUnmatchedEnum; infer_instance

/-- The pair `p` is history-clean for the leftover `u`. -/
def CleanFor (history : HistDict) (u : String) (p : Pair) : Prop :=
  p.1 ∉ histGet history u ∧ p.2 ∉ histGet history u

instance (history : HistDict) (u : String) (p : Pair) :
    Decidable (CleanFor history u p) := by
  unfold CleanFor; infer_instance

/-- The emails carried by an output record. -/
def recordEmails (r : OutputRecord) : List String :=
  r.person_a.email :: r.person_b.email ::
    (match r.person_c with
     | none => []
     | some c => [c.email])

/-- The shape of the pair record the formatter's loop produces for the
matching pair `p`. -/
def PairRec (users : List Participant) (p : Pair) (r : OutputRecord) : Prop :=
  r.match_type = "pair" ∧ r.person_c = none ∧
  r.person_a ∈ users ∧ r.person_a.email = p.1 ∧
  r.person_b ∈ users ∧ r.person_b.email = p.2

/-!
## Lemmas about the history index builder
-/

theorem histGet_histAppend (d : HistDict) (k v a : String) :
    histGet (histAppend d k v) a =
      if a = k then histGet d a ++ [v] else histGet d a := by
  induction d with
  | nil =>
    by_cases h : a = k
    · simp [histAppend, histGet, h]
    · simp [histAppend, histGet, h, Ne.symm h]
  | cons kv tl ih =>
    by_cases hk : kv.1 = k
    · by_cases ha : kv.1 = a
      · have hak : a = k := by rw [← ha, hk]
        simp [histAppend, histGet, hk, ha, hak]
      · have hak : ¬ a = k := fun h => ha (by rw [hk, h])
        simp [histAppend, histGet, hk, ha, hak, Ne.symm hak]
    · by_cases ha : kv.1 = a
      · have hak : ¬ a = k := fun h => hk (by rw [ha, h])
        simp [histAppend, histGet, hk, ha, hak]
      · simp [histAppend, histGet, hk, ha, ih]

theorem mem_histGet_histAppend {d : HistDict} {k v a b : String} :
    b ∈ histGet (histAppend d k v) a ↔
      b ∈ histGet d a ∨ (a = k ∧ b = v) := by
  rw [histGet_histAppend]
  by_cases h : a = k <;> simp [h]

/-- Membership effect of one loop iteration of the history builder. -/
theorem mem_histGet_historyStep {d : HistDict} {row : HistRow} {a b : String} :
    b ∈ histGet (historyStep d row) a ↔
      b ∈ histGet d a ∨
        (∃ p1 p2, row.pa = some p1 ∧ row.pb = some p2 ∧ p1 ≠ "" ∧ p2 ≠ "" ∧
          ((a = p1 ∧ b = p2) ∨ (a = p2 ∧ b = p1))) := by
  unfold historyStep
  match hpa : row.pa, hpb : row.pb with
  | none, _ => simp [hpa]
  | some p1, none => simp [hpa, hpb]
  | some p1, some p2 =>
    by_cases hne : p1 ≠ "" ∧ p2 ≠ ""
    · simp only [hpa, hpb, if_pos hne, mem_histGet_histAppend, Option.some.injEq]
      constructor
      · rintro ((h | h) | h)
        · exact Or.inl h
        · exact Or.inr ⟨p1, p2, rfl, rfl, hne.1, hne.2, Or.inl h⟩
        · exact Or.inr ⟨p1, p2, rfl, rfl, hne.1, hne.2, Or.inr h⟩
      · rintro (h | ⟨q1, q2, hq1, hq2, _, _, (h | h)⟩)
        · exact Or.inl (Or.inl h)
        · subst hq1; subst hq2; exact Or.inl (Or.inr h)
        · subst hq1; subst hq2; exact Or.inr h
    · simp only [hpa, hpb, if_neg hne, Option.some.injEq]
      constructor
      · exact fun h => Or.inl h
      · rintro (h | ⟨q1, q2, hq1, hq2, h1, h2, _⟩)
        · exact h
        · cases hq1; cases hq2; exact absurd ⟨h1, h2⟩ hne

/-- Membership in the fold of the history builder, relative to a starting
dictionary: an entry is present iff it was already present or some surviving
(well-formed) row contributes it. -/
theorem mem_histGet_foldl {rows : List HistRow} {d : HistDict} {a b : String} :
    b ∈ histGet (rows.foldl historyStep d) a ↔
      b ∈ histGet d a ∨
        (∃ row ∈ rows, ∃ p1 p2,
          row.pa = some p1 ∧ row.pb = some p2 ∧ p1 ≠ "" ∧ p2 ≠ "" ∧
          ((a = p1 ∧ b = p2) ∨ (a = p2 ∧ b = p1))) := by
  induction rows generalizing d with
  | nil => simp
  | cons row rows ih =>
    rw [List.foldl_cons, ih, mem_histGet_historyStep]
    constructor
    · rintro ((h | h) | ⟨r, hr, h⟩)
      · exact Or.inl h
      · exact Or.inr ⟨row, by simp, h⟩
      · exact Or.inr ⟨r, by simp [hr], h⟩
    · rintro (h | ⟨r, hr, h⟩)
      · exact Or.inl (Or.inl h)
      · rcases List.mem_cons.mp hr with hr | hr
        · subst hr; exact Or.inl (Or.inr h)
        · exact Or.inr ⟨r, hr, h⟩

/-- Characterization of membership in the built history index. -/
theorem mem_histGet_transform {rows : List HistRow} {a b : String} :
    b ∈ histGet (transform_sheet_history_to_dict rows) a ↔
      ∃ row ∈ rows, ∃ p1 p2,
        row.pa = some p1 ∧ row.pb = some p2 ∧ p1 ≠ "" ∧ p2 ≠ "" ∧
        ((a = p1 ∧ b = p2) ∨ (a = p2 ∧ b = p1)) := by
  rw [transform_sheet_history_to_dict, mem_histGet_foldl]
  simp [histGet]

/-- The built history index is always symmetric. -/
theorem transform_symm (rows : List HistRow) :
    SymmHist (transform_sheet_history_to_dict rows) := by
  intro a b
  rw [mem_histGet_transform, mem_histGet_transform]
  constructor
  · rintro ⟨r, hr, p1, p2, h1, h2, n1, n2, (h | h)⟩
    · exact ⟨r, hr, p1, p2, h1, h2, n1, n2, Or.inr ⟨h.2, h.1⟩⟩
    · exact ⟨r, hr, p1, p2, h1, h2, n1, n2, Or.inl ⟨h.2, h.1⟩⟩
  · rintro ⟨r, hr, p1, p2, h1, h2, n1, n2, (h | h)⟩
    · exact ⟨r, hr, p1, p2, h1, h2, n1, n2, Or.inr ⟨h.2, h.1⟩⟩
    · exact ⟨r, hr, p1, p2, h1, h2, n1, n2, Or.inl ⟨h.2, h.1⟩⟩

/-- Rows missing either identifier (or carrying an empty one) contribute
nothing: deleting such a row does not change the built index. -/
theorem transform_skips_malformed (l₁ l₂ : List HistRow) (row : HistRow)
    (h : ¬ ∃ p1 p2, row.pa = some p1 ∧ row.pb = some p2 ∧ p1 ≠ "" ∧ p2 ≠ "") :
    transform_sheet_history_to_dict (l₁ ++ row :: l₂) =
      transform_sheet_history_to_dict (l₁ ++ l₂) := by
  unfold transform_sheet_history_to_dict
  rw [List.foldl_append, List.foldl_append, List.foldl_cons]
  have hstep : historyStep (l₁.foldl historyStep []) row = l₁.foldl historyStep [] := by
    rcases hpa : row.pa with _ | p1
    · simp [historyStep, hpa]
    · rcases hpb : row.pb with _ | p2
      · simp [historyStep, hpa, hpb]
      · have hb : ¬ (p1 ≠ "" ∧ p2 ≠ "") := fun hn => h ⟨p1, p2, hpa, hpb, hn.1, hn.2⟩
        simp [historyStep, hpa, hpb, hb]
  rw [hstep]

/-!
## Lemmas about the compatibility graph builder
-/

theorem mem_buildEdges_cons {h : HistDict} {c : String} {rest : List String}
    {x y : String} :
    (x, y) ∈ buildEdges h (c :: rest) ↔
      (x = c ∧ y ∈ rest ∧ y ∉ histGet h c) ∨ (x, y) ∈ buildEdges h rest := by
  simp only [buildEdges, List.mem_append, List.mem_map, List.mem_filter,
    Bool.not_eq_true', decide_eq_false_iff_not, Prod.mk.injEq]
  constructor
  · rintro (⟨e2, ⟨he2, hh⟩, hc, hy⟩ | hrec)
    · exact Or.inl ⟨hc.symm, hy ▸ he2, hy ▸ hh⟩
    · exact Or.inr hrec
  · rintro (⟨hx, hy, hh⟩ | hrec)
    · exact Or.inl ⟨y, ⟨hy, hh⟩, hx.symm, rfl⟩
    · exact Or.inr hrec

theorem mem_of_mem_buildEdges {h : HistDict} {l : List String} {x y : String}
    (hmem : (x, y) ∈ buildEdges h l) :
    x ∈ l ∧ y ∈ l ∧ y ∉ histGet h x := by
  induction l with
  | nil => simp [buildEdges] at hmem
  | cons c rest ih =>
    rcases mem_buildEdges_cons.mp hmem with ⟨hx, hy, hh⟩ | hrec
    · exact ⟨hx ▸ List.mem_cons_self c rest, List.mem_cons_of_mem c hy, hx ▸ hh⟩
    · obtain ⟨h1, h2, h3⟩ := ih hrec
      exact ⟨List.mem_cons_of_mem c h1, List.mem_cons_of_mem c h2, h3⟩

theorem ne_of_mem_buildEdges {h : HistDict} {l : List String} {x y : String}
    (hN : l.Nodup) (hmem : (x, y) ∈ buildEdges h l) : x ≠ y := by
  induction l with
  | nil => simp [buildEdges] at hmem
  | cons c rest ih =>
    rcases List.nodup_cons.mp hN with ⟨hc, hrest⟩
    rcases mem_buildEdges_cons.mp hmem with ⟨hx, hy, _⟩ | hrec
    · rintro rfl
      exact hc (hx ▸ hy)
    · exact ih hrest hrec

/-- The core edge-existence invariant of the builder, over any node list
without duplicate identifiers and any symmetric history index. -/
theorem hasEdge_buildEdges_iff {h : HistDict} {l : List String} {a b : String}
    (hN : l.Nodup) (hS : SymmHist h) (ha : a ∈ l) (hb : b ∈ l) :
    ((a, b) ∈ buildEdges h l ∨ (b, a) ∈ buildEdges h l) ↔
      a ≠ b ∧ b ∉ histGet h a := by
  induction l with
  | nil => simp at ha
  | cons c rest ih =>
    rcases List.nodup_cons.mp hN with ⟨hc, hrest⟩
    rcases List.mem_cons.mp ha with rfl | ha' <;>
      rcases List.mem_cons.mp hb with hb' | hb'
    · -- a = c and b = c (so a = b)
      subst hb'
      constructor
      · rintro (hm | hm) <;>
        · rcases mem_buildEdges_cons.mp hm with ⟨_, hy, _⟩ | hrec
          · exact absurd hy hc
          · exact absurd (mem_of_mem_buildEdges hrec).1 hc
      · rintro ⟨hne, _⟩; exact absurd rfl hne
    · -- a = c, b ∈ rest
      have hab : a ≠ b := by rintro rfl; exact hc hb'
      constructor
      · rintro (hm | hm)
        · rcases mem_buildEdges_cons.mp hm with ⟨_, _, hh⟩ | hrec
          · exact ⟨hab, hh⟩
          · exact absurd (mem_of_mem_buildEdges hrec).1 hc
        · rcases mem_buildEdges_cons.mp hm with ⟨hbc, _, _⟩ | hrec
          · exact absurd (hbc ▸ hb') hc
          · exact absurd (mem_of_mem_buildEdges hrec).2.1 hc
      · rintro ⟨hne, hh⟩
        exact Or.inl (mem_buildEdges_cons.mpr (Or.inl ⟨rfl, hb', hh⟩))
    · -- a ∈ rest, b = c
      subst hb'
      have hab : a ≠ b := by rintro rfl; exact hc ha'
      constructor
      · rintro (hm | hm)
        · rcases mem_buildEdges_cons.mp hm with ⟨_, hbr, _⟩ | hrec
          · exact absurd hbr hc
          · exact absurd (mem_of_mem_buildEdges hrec).2.1 hc
        · rcases mem_buildEdges_cons.mp hm with ⟨_, _, hh⟩ | hrec
          · exact ⟨hab, fun hmem => hh ((hS a b).mpr hmem)⟩
          · exact absurd (mem_of_mem_buildEdges hrec).1 hc
      · rintro ⟨hne, hh⟩
        refine Or.inr (mem_buildEdges_cons.mpr (Or.inl ⟨rfl, ha', ?_⟩))
        exact fun hmem => hh ((hS a b).mp hmem)
    · -- both in rest
      constructor
      · rintro (hm | hm)
        · rcases mem_buildEdges_cons.mp hm with ⟨hac, _, _⟩ | hrec
          · exact absurd (hac ▸ ha') hc
          · exact (ih hrest ha' hb').mp (Or.inl hrec)
        · rcases mem_buildEdges_cons.mp hm with ⟨hbc, _, _⟩ | hrec
          · exact absurd (hbc ▸ hb') hc
          · exact (ih hrest ha' hb').mp (Or.inr hrec)
      · intro hcond
        rcases (ih hrest ha' hb').mpr hcond with hm | hm
        · exact Or.inl (mem_buildEdges_cons.mpr (Or.inr hm))
        · exact Or.inr (mem_buildEdges_cons.mpr (Or.inr hm))

theorem buildEdges_short {h : HistDict} {l : List String}
    (hl : l.length ≤ 1) : buildEdges h l = [] := by
  match l with
  | [] => rfl
  | [e] => simp [buildEdges]
  | e1 :: e2 :: tl => simp at hl

/-- C2: For every active participant list (without duplicate identifiers,
the spec's stated precondition) and every symmetric history index, the
compatibility graph's nodes are exactly the participants' identifiers, and an
edge joins `a` and `b` iff `a ≠ b` and `b` is not in the history entry for
`a` (equivalently, by symmetry of the index, `a` not in the entry for `b`). -/
theorem build_compatibility_graph_correct (users : List Participant)
    (history : HistDict) (hN : (users.map (·.email)).Nodup)
    (hS : SymmHist history) :
    ((build_compatibility_graph users history).nodes = users.map (·.email)) ∧
    (∀ a b : String, a ∈ users.map (·.email) → b ∈ users.map (·.email) →
      (hasEdge (build_compatibility_graph users history) a b ↔
        a ≠ b ∧ b ∉ histGet history a)) := by
  refine ⟨rfl, fun a b ha hb => ?_⟩
  exact hasEdge_buildEdges_iff hN hS ha hb

/-- Witness for C2: on a concrete three-participant set whose built history
records a prior `c`–`a` match, `a`–`b` is an edge and `a`–`c` is not. -/
theorem build_compatibility_graph_correct_witness :
    hasEdge (build_compatibility_graph
      [⟨"a", "A", []⟩, ⟨"b", "B", []⟩, ⟨"c", "C", []⟩]
      (transform_sheet_history_to_dict [⟨some "c", some "a"⟩])) "a" "b" ∧
    ¬ hasEdge (build_compatibility_graph
      [⟨"a", "A", []⟩, ⟨"b", "B", []⟩, ⟨"c", "C", []⟩]
      (transform_sheet_history_to_dict [⟨some "c", some "a"⟩])) "a" "c" := by
  constructor
  · exact ((build_compatibility_graph_correct _ _ (by decide)
      (transform_symm _)).2 "a" "b" (by decide) (by decide)).mpr (by decide)
  · intro hedge
    have h := ((build_compatibility_graph_correct _ _ (by decide)
      (transform_symm _)).2 "a" "c" (by decide) (by decide)).mp hedge
    exact absurd h (by decide)

/-!
## Lemmas about the modelled maximum matching solver
-/

theorem PairDisj_symmetric : Symmetric PairDisj := by
  rintro p q ⟨h1, h2, h3, h4⟩
  exact ⟨h1.symm, h3.symm, h2.symm, h4.symm⟩

theorem nodup_of_pairwise_disj {M : List Pair} (hD : M.Pairwise PairDisj) :
    M.Nodup :=
  hD.imp (fun {p q} h => by rintro rfl; exact h.1 rfl)

theorem maxMatchingRaw_isMatching (edges : List Pair) :
    isMatchingIn edges (maxMatchingRaw edges) := by
  unfold maxMatchingRaw
  cases harg : ((edges.sublists).filter
      (fun M => decide (isMatchingIn edges M))).argmax List.length with
  | none =>
    simp only [Option.getD_none]
    exact ⟨fun p hp => absurd hp (List.not_mem_nil p), List.Pairwise.nil⟩
  | some m =>
    simp only [Option.getD_some]
    have hm := List.argmax_mem (Option.mem_def.mpr harg)
    exact of_decide_eq_true (List.mem_filter.mp hm).2

theorem maxMatchingRaw_maximal {edges M : List Pair}
    (hM : ∀ p ∈ M, p ∈ edges) (hD : M.Pairwise PairDisj) :
    M.length ≤ (maxMatchingRaw edges).length := by
  classical
  set M₁ := edges.dedup.filter (fun e => decide (e ∈ M)) with hM₁def
  have hmem₁ : ∀ x, x ∈ M₁ ↔ x ∈ M := by
    intro x
    rw [hM₁def, List.mem_filter, List.mem_dedup, decide_eq_true_eq]
    exact ⟨fun h => h.2, fun h => ⟨hM x h, h⟩⟩
  have hnodupM : M.Nodup := nodup_of_pairwise_disj hD
  have hnodup₁ : M₁.Nodup := (List.nodup_dedup edges).filter _
  have hlen : M.length ≤ M₁.length :=
    (List.subperm_of_subset hnodupM fun x hx => (hmem₁ x).mpr hx).length_le
  have hsub : List.Sublist M₁ edges :=
    (List.filter_sublist _).trans (List.dedup_sublist edges)
  have hmatch : isMatchingIn edges M₁ := by
    refine ⟨fun p hp => hsub.subset hp, ?_⟩
    refine hnodup₁.pairwise_of_forall_ne fun x hx y hy hne => ?_
    exact (hD.forall PairDisj_symmetric) ((hmem₁ x).mp hx) ((hmem₁ y).mp hy) hne
  have hfil : M₁ ∈ (edges.sublists).filter
      (fun M => decide (isMatchingIn edges M)) :=
    List.mem_filter.mpr ⟨List.mem_sublists.mpr hsub, decide_eq_true hmatch⟩
  unfold maxMatchingRaw
  cases harg : ((edges.sublists).filter
      (fun M => decide (isMatchingIn edges M))).argmax List.length with
  | none =>
    rw [List.argmax_eq_none] at harg
    rw [harg] at hfil
    exact absurd hfil (List.not_mem_nil M₁)
  | some m =>
    simp only [Option.getD_some]
    have := List.not_lt_of_mem_argmax hfil (Option.mem_def.mpr harg)
    omega

theorem matchedEmails_cons (p : Pair) (L : List Pair) :
    matchedEmails (p :: L) = p.1 :: p.2 :: matchedEmails L := rfl

theorem mem_matchedEmails {L : List Pair} {x : String} :
    x ∈ matchedEmails L ↔ ∃ p ∈ L, x = p.1 ∨ x = p.2 := by
  induction L with
  | nil => simp [matchedEmails]
  | cons p L ih =>
    rw [matchedEmails_cons]
    simp only [List.mem_cons, ih]
    constructor
    · rintro (rfl | rfl | ⟨q, hq, hx⟩)
      · exact ⟨p, Or.inl rfl, Or.inl rfl⟩
      · exact ⟨p, Or.inl rfl, Or.inr rfl⟩
      · exact ⟨q, Or.inr hq, hx⟩
    · rintro ⟨q, (rfl | hq), hx⟩
      · rcases hx with rfl | rfl
        · exact Or.inl rfl
        · exact Or.inr (Or.inl rfl)
      · exact Or.inr (Or.inr ⟨q, hq, hx⟩)

theorem charListLt_asymm :
    ∀ {as bs : List Char}, charListLt as bs = true → charListLt bs as = false := by
  intro as
  induction as with
  | nil =>
    intro bs h
    cases bs with
    | nil => simp [charListLt] at h
    | cons d ds => simp [charListLt]
  | cons c cs ih =>
    intro bs h
    cases bs with
    | nil => simp [charListLt] at h
    | cons d ds =>
      by_cases h1 : c.toNat < d.toNat
      · have h2 : ¬ d.toNat < c.toNat := Nat.lt_asymm h1
        simp [charListLt, h1, h2]
      · by_cases h2 : d.toNat < c.toNat
        · simp [charListLt, h1, h2] at h
        · simp only [charListLt, if_neg h1, if_neg h2] at h
          simp [charListLt, h1, h2, ih h]

theorem strLt_asymm {a b : String} (h : strLt a b = true) :
    strLt b a = false :=
  charListLt_asymm h

theorem sortPair_hasEdge {G : Graph} {p : Pair} :
    hasEdge G (sortPair p).1 (sortPair p).2 ↔ hasEdge G p.1 p.2 := by
  unfold sortPair hasEdge
  split_ifs <;> simp [or_comm]

theorem sortPair_disj {p q : Pair} (h : PairDisj p q) :
    PairDisj (sortPair p) (sortPair q) := by
  unfold sortPair
  obtain ⟨h1, h2, h3, h4⟩ := h
  split_ifs <;> exact ⟨by assumption, by assumption, by assumption, by assumption⟩

theorem sortPair_idem (p : Pair) : sortPair (sortPair p) = sortPair p := by
  by_cases h : strLt p.2 p.1
  · have h1 : sortPair p = (p.2, p.1) := by simp [sortPair, h]
    rw [h1]
    simp [sortPair, strLt_asymm h]
  · have h1 : sortPair p = p := by
      simp only [sortPair, h]
      simp
    rw [h1, h1]

theorem sortPair_elems (p : Pair) (x : String) :
    (x = (sortPair p).1 ∨ x = (sortPair p).2) ↔ (x = p.1 ∨ x = p.2) := by
  unfold sortPair
  split_ifs <;> simp [or_comm]

theorem sortPair_ne {p : Pair} (h : p.1 ≠ p.2) :
    (sortPair p).1 ≠ (sortPair p).2 := by
  unfold sortPair
  split_ifs
  · exact h.symm
  · exact h

/-- The solver result is well formed with respect to its graph: no duplicate
pairs, every pair a sorted graph edge, all pairs endpoint-disjoint. -/
theorem find_maximum_matching_wellFormed (G : Graph) :
    WellFormedMatching G (find_maximum_matching G) := by
  obtain ⟨hmem, hdisj⟩ := maxMatchingRaw_isMatching G.edges
  refine ⟨?_, ?_, ?_⟩
  · refine nodup_of_pairwise_disj ?_
    rw [find_maximum_matching, List.pairwise_map]
    exact hdisj.imp sortPair_disj
  · rintro p hp
    rw [find_maximum_matching, List.mem_map] at hp
    obtain ⟨q, hq, rfl⟩ := hp
    constructor
    · have : (q.1, q.2) ∈ G.edges := by
        have h := hmem q hq
        simpa using h
      rw [sortPair_hasEdge]
      exact Or.inl this
    · rw [sortPair_idem]
  · rw [find_maximum_matching, List.pairwise_map]
    exact hdisj.imp sortPair_disj

/-- C1: On every self-loop-free graph handed to the solver, the returned
set of pairs is a matching — each pair is a graph edge with distinct
endpoints, distinct pairs share no identifier — and it is of maximal
cardinality: every matching in the graph is at most as large, and no edge
joining two identifiers left unmatched by the result can exist. -/
theorem find_maximum_matching_correct (G : Graph)
    (hG : ∀ p ∈ G.edges, p.1 ≠ p.2) :
    ((∀ p ∈ find_maximum_matching G, hasEdge G p.1 p.2 ∧ p.1 ≠ p.2) ∧
      (find_maximum_matching G).Pairwise PairDisj) ∧
    (∀ M : List Pair, M.Pairwise PairDisj →
      (∀ p ∈ M, hasEdge G p.1 p.2) →
      M.length ≤ (find_maximum_matching G).length) ∧
    (∀ a b : String, hasEdge G a b →
      a ∉ matchedEmails (find_maximum_matching G) →
      b ∉ matchedEmails (find_maximum_matching G) → False) := by
  obtain ⟨hmemRaw, hdisjRaw⟩ := maxMatchingRaw_isMatching G.edges
  have hdisjS : (find_maximum_matching G).Pairwise PairDisj := by
    rw [find_maximum_matching, List.pairwise_map]
    exact hdisjRaw.imp sortPair_disj
  have hmemS : ∀ p ∈ find_maximum_matching G, hasEdge G p.1 p.2 ∧ p.1 ≠ p.2 := by
    rintro p hp
    rw [find_maximum_matching, List.mem_map] at hp
    obtain ⟨q, hq, rfl⟩ := hp
    have hqe : (q.1, q.2) ∈ G.edges := by
      have := hmemRaw q hq
      simpa using this
    exact ⟨sortPair_hasEdge.mpr (Or.inl hqe), sortPair_ne (hG _ hqe)⟩
  have hmax : ∀ M : List Pair, M.Pairwise PairDisj →
      (∀ p ∈ M, hasEdge G p.1 p.2) →
      M.length ≤ (find_maximum_matching G).length := by
    intro M hD hMe
    classical
    set M₀ := M.map (fun p => if (p.1, p.2) ∈ G.edges then p else (p.2, p.1))
      with hM₀def
    have hM₀mem : ∀ p ∈ M₀, p ∈ G.edges := by
      intro p hp
      rw [hM₀def, List.mem_map] at hp
      obtain ⟨q, hq, rfl⟩ := hp
      by_cases hcase : (q.1, q.2) ∈ G.edges
      · simp only [if_pos hcase]
        exact hcase
      · rcases hMe q hq with hqe | hqe
        · exact absurd hqe hcase
        · simpa [hcase] using hqe
    have hM₀disj : M₀.Pairwise PairDisj := by
      rw [hM₀def, List.pairwise_map]
      refine hD.imp fun {p q} h => ?_
      obtain ⟨h1, h2, h3, h4⟩ := h
      split_ifs <;>
        exact ⟨by assumption, by assumption, by assumption, by assumption⟩
    have hlen₀ : M₀.length = M.length := by rw [hM₀def, List.length_map]
    have := maxMatchingRaw_maximal hM₀mem hM₀disj
    rw [hlen₀] at this
    calc M.length ≤ (maxMatchingRaw G.edges).length := this
      _ = (find_maximum_matching G).length := by
          rw [find_maximum_matching, List.length_map]
  refine ⟨⟨hmemS, hdisjS⟩, hmax, ?_⟩
  intro a b hab ha hb
  have hnotmem : ∀ x p, p ∈ find_maximum_matching G →
      x ∉ matchedEmails (find_maximum_matching G) → x ≠ p.1 ∧ x ≠ p.2 := by
    intro x p hp hx
    constructor <;> rintro rfl <;> refine hx ?_
    · exact (mem_matchedEmails).mpr ⟨p, hp, Or.inl rfl⟩
    · exact (mem_matchedEmails).mpr ⟨p, hp, Or.inr rfl⟩
  have hdisjnew : ((a, b) :: find_maximum_matching G).Pairwise PairDisj := by
    refine List.pairwise_cons.mpr ⟨?_, hdisjS⟩
    intro p hp
    obtain ⟨ha1, ha2⟩ := hnotmem a p hp ha
    obtain ⟨hb1, hb2⟩ := hnotmem b p hp hb
    exact ⟨ha1, ha2, hb1, hb2⟩
  have hmemnew : ∀ p ∈ (a, b) :: find_maximum_matching G, hasEdge G p.1 p.2 := by
    intro p hp
    rcases List.mem_cons.mp hp with rfl | hp
    · exact hab
    · exact (hmemS p hp).1
  have := hmax _ hdisjnew hmemnew
  simp at this

/-- Witness for C1: on the concrete complete graph over three participants the
returned pairs are endpoint-disjoint, and the concrete matching
`[("a", "b")]` is no larger than the returned one. -/
theorem find_maximum_matching_correct_witness :
    (find_maximum_matching (build_compatibility_graph
      [⟨"a", "A", []⟩, ⟨"b", "B", []⟩, ⟨"c", "C", []⟩] [])).Pairwise PairDisj ∧
    [(("a" : String), ("b" : String))].length ≤
      (find_maximum_matching (build_compatibility_graph
        [⟨"a", "A", []⟩, ⟨"b", "B", []⟩, ⟨"c", "C", []⟩] [])).length := by
  refine ⟨(find_maximum_matching_correct _ (by decide)).1.2, ?_⟩
  exact (find_maximum_matching_correct _ (by decide)).2.1
    [("a", "b")] (by decide) (by decide)

/-- C7: The history index builder records every well-formed row (both
emails present and non-empty) symmetrically, the resulting index is always
symmetric, and malformed rows contribute nothing (deleting one leaves the
index unchanged). -/
theorem transform_history_correct (rows : List HistRow) :
    (∀ row ∈ rows, ∀ p q : String, row.pa = some p → row.pb = some q →
      p ≠ "" → q ≠ "" →
      q ∈ histGet (transform_sheet_history_to_dict rows) p ∧
      p ∈ histGet (transform_sheet_history_to_dict rows) q) ∧
    SymmHist (transform_sheet_history_to_dict rows) ∧
    (∀ (l₁ l₂ : List HistRow) (row : HistRow), rows = l₁ ++ row :: l₂ →
      (¬ ∃ p q, row.pa = some p ∧ row.pb = some q ∧ p ≠ "" ∧ q ≠ "") →
      transform_sheet_history_to_dict rows =
        transform_sheet_history_to_dict (l₁ ++ l₂)) := by
  refine ⟨?_, transform_symm rows, ?_⟩
  · intro row hrow p q hp hq hpne hqne
    constructor
    · exact mem_histGet_transform.mpr
        ⟨row, hrow, p, q, hp, hq, hpne, hqne, Or.inl ⟨rfl, rfl⟩⟩
    · exact mem_histGet_transform.mpr
        ⟨row, hrow, p, q, hp, hq, hpne, hqne, Or.inr ⟨rfl, rfl⟩⟩
  · intro l₁ l₂ row hsplit hbad
    subst hsplit
    exact transform_skips_malformed l₁ l₂ row hbad

/-- Witness for C7: concretely, the well-formed row `a`–`b` is recorded in
both directions and the malformed row (empty first email) changes nothing. -/
theorem transform_history_correct_witness :
    "b" ∈ histGet (transform_sheet_history_to_dict
      [⟨some "a", some "b"⟩, ⟨some "", some "c"⟩]) "a" ∧
    "a" ∈ histGet (transform_sheet_history_to_dict
      [⟨some "a", some "b"⟩, ⟨some "", some "c"⟩]) "b" ∧
    transform_sheet_history_to_dict [⟨some "a", some "b"⟩, ⟨some "", some "c"⟩] =
      transform_sheet_history_to_dict [⟨some "a", some "b"⟩] := by
  obtain ⟨hrec, _, hskip⟩ := transform_history_correct
    [⟨some "a", some "b"⟩, ⟨some "", some "c"⟩]
  obtain ⟨h1, h2⟩ := hrec ⟨some "a", some "b"⟩ (by simp) "a" "b" rfl rfl
    (by decide) (by decide)
  refine ⟨h1, h2, ?_⟩
  have := hskip [⟨some "a", some "b"⟩] [] ⟨some "", some "c"⟩ rfl ?_
  · simpa using this
  · rintro ⟨p, q, hp, hq, hpne, hqne⟩
    cases hp
    exact hpne rfl

/-!
## Lemmas about the odd-one-out resolver
-/

theorem create_triad_nil_matches (uL : List String) (h : HistDict) :
    create_triad [] uL h = none := by
  cases uL with
  | nil => rfl
  | cons u rest => rfl

/-- Structure of a successful `create_triad` call: the absorbed participant is
the head of the unmatched enumeration, the absorbed pair is one of the
matching pairs, and it is history-clean whenever any history-clean pair
exists. -/
theorem create_triad_some_spec {L : List Pair} {uL : List String}
    {h : HistDict} {t : String × String × String}
    (ht : create_triad L uL h = some t) :
    ∃ rest, uL = t.2.2 :: rest ∧ (t.1, t.2.1) ∈ L ∧
      ((∃ q ∈ L, CleanFor h t.2.2 q) → CleanFor h t.2.2 (t.1, t.2.1)) := by
  cases uL with
  | nil => simp [create_triad] at ht
  | cons u rest =>
    cases hf : L.find? (fun p =>
        !(decide (p.1 ∈ histGet h u)) && !(decide (p.2 ∈ histGet h u))) with
    | some p =>
      have hteq : create_triad L (u :: rest) h = some (p.1, p.2, u) := by
        simp [create_triad, hf]
      rw [hteq] at ht
      cases ht
      refine ⟨rest, rfl, List.mem_of_find?_eq_some hf, fun _ => ?_⟩
      have hcl := List.find?_some hf
      simp only [Bool.and_eq_true, Bool.not_eq_true', decide_eq_false_iff_not]
        at hcl
      exact hcl
    | none =>
      cases L with
      | nil =>
        rw [create_triad_nil_matches] at ht
        simp at ht
      | cons p L' =>
        have hteq : create_triad (p :: L') (u :: rest) h = some (p.1, p.2, u) := by
          simp [create_triad, hf]
        rw [hteq] at ht
        cases ht
        refine ⟨rest, rfl, List.mem_cons_self _ _, fun hex => ?_⟩
        obtain ⟨q, hq, hclean⟩ := hex
        have hnone := List.find?_eq_none.mp hf q hq
        simp only [Bool.and_eq_true, Bool.not_eq_true', decide_eq_false_iff_not]
          at hnone
        exact absurd hclean hnone

/-- A triad is always formed when a pair and a leftover both exist. -/
theorem create_triad_isSome (L : List Pair) (u : String)
    (rest : List String) (h : HistDict) (hL : L ≠ []) :
    ∃ t, create_triad L (u :: rest) h = some t := by
  cases hf : L.find? (fun p =>
      !(decide (p.1 ∈ histGet h u)) && !(decide (p.2 ∈ histGet h u))) with
  | some p => exact ⟨(p.1, p.2, u), by simp [create_triad, hf]⟩
  | none =>
    cases L with
    | nil => exact absurd rfl hL
    | cons p L' => exact ⟨(p.1, p.2, u), by simp [create_triad, hf]⟩

/-!
## Lemmas about the formatter
-/

theorem plookup_mem {users : List Participant} {e : String} {u : Participant}
    (h : plookup users e = some u) : u ∈ users ∧ u.email = e := by
  unfold plookup at h
  constructor
  · exact List.mem_reverse.mp (List.mem_of_find?_eq_some h)
  · have hbeq := List.find?_some h
    exact beq_iff_eq.mp hbeq

theorem plookup_isSome {users : List Participant} {e : String}
    (h : e ∈ users.map (·.email)) : ∃ u, plookup users e = some u := by
  rw [List.mem_map] at h
  obtain ⟨u, hu, he⟩ := h
  unfold plookup
  cases hf : users.reverse.find? (fun v => v.email == e) with
  | some v => exact ⟨v, rfl⟩
  | none =>
    have hcon := List.find?_eq_none.mp hf u (List.mem_reverse.mpr hu)
    simp [he] at hcon

/-- Structure of the pair records produced by the formatter's loop. -/
theorem formatPairs_spec {users : List Participant} {L : List Pair}
    {recs : List OutputRecord} (h : formatPairs users L = some recs) :
    List.Forall₂ (PairRec users) L recs := by
  induction L generalizing recs with
  | nil =>
    simp only [formatPairs, Option.some.injEq] at h
    subst h
    exact List.Forall₂.nil
  | cons p rest ih =>
    unfold formatPairs at h
    cases ha : plookup users p.1 with
    | none => rw [ha] at h; simp at h
    | some a =>
      cases hb : plookup users p.2 with
      | none => rw [ha, hb] at h; simp at h
      | some b =>
        cases hr : formatPairs users rest with
        | none => rw [ha, hb, hr] at h; simp at h
        | some recs' =>
          rw [ha, hb, hr] at h
          simp only [Option.some.injEq] at h
          subst h
          refine List.Forall₂.cons ?_ (ih hr)
          exact ⟨rfl, rfl, (plookup_mem ha).1, (plookup_mem ha).2,
            (plookup_mem hb).1, (plookup_mem hb).2⟩

theorem formatPairs_isSome {users : List Participant} {L : List Pair}
    (h : ∀ p ∈ L, p.1 ∈ users.map (·.email) ∧ p.2 ∈ users.map (·.email)) :
    ∃ recs, formatPairs users L = some recs := by
  induction L with
  | nil => exact ⟨[], rfl⟩
  | cons p rest ih =>
    obtain ⟨a, ha⟩ := plookup_isSome (h p (List.mem_cons_self _ _)).1
    obtain ⟨b, hb⟩ := plookup_isSome (h p (List.mem_cons_self _ _)).2
    obtain ⟨recs', hr⟩ := ih fun q hq => h q (List.mem_cons_of_mem _ hq)
    refine ⟨OutputRecord.mk "pair" a b none :: recs', ?_⟩
    unfold formatPairs
    rw [ha, hb, hr]

theorem pairRec_recordEmails {users : List Participant} {p : Pair}
    {r : OutputRecord} (h : PairRec users p r) :
    recordEmails r = [p.1, p.2] := by
  obtain ⟨_, hc, _, ha, _, hb⟩ := h
  simp [recordEmails, hc, ha, hb]

theorem forall₂_mem_right {α β : Type} {R : α → β → Prop} {l₁ : List α}
    {l₂ : List β} (h : List.Forall₂ R l₁ l₂) {y : β} (hy : y ∈ l₂) :
    ∃ x ∈ l₁, R x y := by
  induction h with
  | nil => exact absurd hy (List.not_mem_nil y)
  | cons hab hrest ih =>
    rcases List.mem_cons.mp hy with rfl | hy'
    · exact ⟨_, List.mem_cons_self _ _, hab⟩
    · obtain ⟨x, hx, hR⟩ := ih hy'
      exact ⟨x, List.mem_cons_of_mem _ hx, hR⟩

theorem forall₂_pairwise {α β : Type} {R : α → β → Prop} {S : α → α → Prop}
    {T : β → β → Prop} {l₁ : List α} {l₂ : List β}
    (hR : List.Forall₂ R l₁ l₂) (hS : l₁.Pairwise S)
    (hcompat : ∀ a b x y, R a x → R b y → S a b → T x y) :
    l₂.Pairwise T := by
  induction hR with
  | nil => exact List.Pairwise.nil
  | cons hab hrest ih =>
    rcases List.pairwise_cons.mp hS with ⟨hhead, htail⟩
    refine List.pairwise_cons.mpr ⟨?_, ih htail⟩
    intro y hy
    obtain ⟨x, hx, hRxy⟩ := forall₂_mem_right hrest hy
    exact hcompat _ _ _ _ hab hRxy (hhead x hx)

/-- Structure of a successful formatter run. -/
theorem format_some_spec {L : List Pair}
    {triad : Option (String × String × String)} {users : List Participant}
    {out : List OutputRecord}
    (h : format_matches_for_tray L triad users = some out) :
    ∃ precs, formatPairs users L = some precs ∧
      ((triad = none ∧ out = precs) ∨
        (∃ t a b c, triad = some t ∧
          plookup users t.1 = some a ∧ plookup users t.2.1 = some b ∧
          plookup users t.2.2 = some c ∧
          out = precs ++ [OutputRecord.mk "triad" a b (some c)])) := by
  unfold format_matches_for_tray at h
  split at h
  · exact absurd h (by simp)
  · rename_i precs hp
    have hout : out = precs := by injection h with h2; exact h2.symm
    exact ⟨precs, hp, Or.inl ⟨rfl, hout⟩⟩
  · rename_i precs t hp
    split at h
    · rename_i a b c ha hb hc
      injection h with h2
      exact ⟨precs, hp, Or.inr ⟨t, a, b, c, rfl, ha, hb, hc, h2.symm⟩⟩
    · exact absurd h (by simp)

/-- Case analysis of the main workflow. -/
theorem workflow_eq (active : List Participant) (raw : List HistRow)
    (L : List Pair) (uL : List String) :
    run_matching_workflow active raw L uL =
      match (if active.length % 2 ≠ 0 then
          create_triad L uL (transform_sheet_history_to_dict raw)
        else none) with
      | some t =>
        format_matches_for_tray (L.erase (sortPair (t.1, t.2.1))) (some t)
          active
      | none => format_matches_for_tray L none active := by
  rfl

theorem matchedEmails_length (L : List Pair) :
    (matchedEmails L).length = 2 * L.length := by
  induction L with
  | nil => rfl
  | cons p L ih =>
    rw [matchedEmails_cons]
    simp only [List.length_cons, ih]
    omega

theorem matchedEmails_nodup {L : List Pair}
    (hne : ∀ p ∈ L, p.1 ≠ p.2) (hD : L.Pairwise PairDisj) :
    (matchedEmails L).Nodup := by
  induction L with
  | nil => simp [matchedEmails]
  | cons p L ih =>
    rw [matchedEmails_cons]
    rcases List.pairwise_cons.mp hD with ⟨hp, hD'⟩
    refine List.nodup_cons.mpr ⟨?_, List.nodup_cons.mpr
      ⟨?_, ih (fun q hq => hne q (List.mem_cons_of_mem _ hq)) hD'⟩⟩
    · intro hmem
      rcases List.mem_cons.mp hmem with heq | hmem'
      · exact hne p (List.mem_cons_self _ _) heq
      · rcases mem_matchedEmails.mp hmem' with ⟨q, hq, (heq | heq)⟩
        · exact (hp q hq).1 heq
        · exact (hp q hq).2.1 heq
    · intro hmem
      rcases mem_matchedEmails.mp hmem with ⟨q, hq, (heq | heq)⟩
      · exact (hp q hq).2.2.1 heq
      · exact (hp q hq).2.2.2 heq

/-- Every matched endpoint is an active identifier, and the two endpoints of
each pair differ (for a well-formed matching on a built graph). -/
theorem wf_endpoints {users : List Participant} {hist : HistDict}
    {L : List Pair}
    (hN : (users.map (·.email)).Nodup)
    (hWF : WellFormedMatching (build_compatibility_graph users hist) L) :
    (∀ p ∈ L, p.1 ≠ p.2) ∧
    (∀ x ∈ matchedEmails L, x ∈ users.map (·.email)) := by
  obtain ⟨_, hedge, _⟩ := hWF
  have hne : ∀ p ∈ L, p.1 ≠ p.2 := by
    intro p hp
    rcases (hedge p hp).1 with hm | hm
    · exact ne_of_mem_buildEdges hN hm
    · exact (ne_of_mem_buildEdges hN hm).symm
  refine ⟨hne, ?_⟩
  intro x hx
  rcases mem_matchedEmails.mp hx with ⟨p, hp, (rfl | rfl)⟩
  · rcases (hedge p hp).1 with hm | hm
    · exact (mem_of_mem_buildEdges hm).1
    · exact (mem_of_mem_buildEdges hm).2.1
  · rcases (hedge p hp).1 with hm | hm
    · exact (mem_of_mem_buildEdges hm).2.1
    · exact (mem_of_mem_buildEdges hm).1

/-- With an odd number of active identifiers, the unmatched enumeration is
never empty. -/
theorem unmatched_nonempty {users : List Participant} {hist : HistDict}
    {L : List Pair} {uL : List String}
    (hN : (users.map (·.email)).Nodup)
    (hWF : WellFormedMatching (build_compatibility_graph users hist) L)
    (hEnum : IsUnmatchedEnum users L uL)
    (hodd : (users.map (·.email)).length % 2 = 1) : uL ≠ [] := by
  rintro rfl
  obtain ⟨hne, hsub⟩ := wf_endpoints hN hWF
  have hall : ∀ x ∈ users.map (·.email), x ∈ matchedEmails L := by
    intro x hx
    by_contra hxm
    exact (List.not_mem_nil x) (hEnum.2.2 x hx hxm)
  have hmnodup := matchedEmails_nodup hne hWF.2.2
  have h1 : (users.map (·.email)).length ≤ (matchedEmails L).length :=
    (List.subperm_of_subset hN hall).length_le
  have h2 : (matchedEmails L).length ≤ (users.map (·.email)).length :=
    (List.subperm_of_subset hmnodup hsub).length_le
  have hlen := matchedEmails_length L
  omega

/-- The two ways a workflow run can proceed: with a triad (odd count and
`create_triad` succeeded) or without one. -/
theorem workflow_some_cases {active : List Participant} {raw : List HistRow}
    {L : List Pair} {uL : List String} {out : List OutputRecord}
    (hOut : run_matching_workflow active raw L uL = some out) :
    (∃ t, create_triad L uL (transform_sheet_history_to_dict raw) = some t ∧
      active.length % 2 ≠ 0 ∧
      format_matches_for_tray (L.erase (sortPair (t.1, t.2.1))) (some t)
        active = some out) ∨
    ((active.length % 2 = 0 ∨
        create_triad L uL (transform_sheet_history_to_dict raw) = none) ∧
      format_matches_for_tray L none active = some out) := by
  rw [workflow_eq] at hOut
  by_cases hodd : active.length % 2 ≠ 0
  · rw [if_pos hodd] at hOut
    cases htr : create_triad L uL (transform_sheet_history_to_dict raw) with
    | none =>
      rw [htr] at hOut
      exact Or.inr ⟨Or.inr rfl, hOut⟩
    | some t =>
      rw [htr] at hOut
      exact Or.inl ⟨t, rfl, hodd, hOut⟩
  · rw [if_neg hodd] at hOut
    exact Or.inr ⟨Or.inl (not_ne_iff.mp hodd), hOut⟩

/-- Master structure of every record the workflow outputs: a pair record
echoing some matching pair, or the triad record echoing `create_triad`'s
result. -/
theorem workflow_records {active : List Participant} {raw : List HistRow}
    {L : List Pair} {uL : List String} {out : List OutputRecord}
    (hOut : run_matching_workflow active raw L uL = some out) :
    ∀ r ∈ out,
      (r.match_type = "pair" ∧ r.person_c = none ∧
        ∃ q ∈ L, r.person_a ∈ active ∧ r.person_a.email = q.1 ∧
          r.person_b ∈ active ∧ r.person_b.email = q.2) ∨
      (r.match_type = "triad" ∧
        ∃ t c, create_triad L uL (transform_sheet_history_to_dict raw) =
            some t ∧
          r.person_c = some c ∧
          r.person_a ∈ active ∧ r.person_a.email = t.1 ∧
          r.person_b ∈ active ∧ r.person_b.email = t.2.1 ∧
          c ∈ active ∧ c.email = t.2.2 ∧ (t.1, t.2.1) ∈ L) := by
  intro r hr
  rcases workflow_some_cases hOut with ⟨t, htr, _, hfmt⟩ | ⟨_, hfmt⟩
  · obtain ⟨precs, hp, hcase⟩ := format_some_spec hfmt
    rcases hcase with ⟨hnone, _⟩ | ⟨t', a, b, c, ht', ha, hb, hc, rfl⟩
    · exact Option.noConfusion hnone
    · injection ht' with ht'
      subst ht'
      rcases List.mem_append.mp hr with hr | hr
      · obtain ⟨q, hq, hrec⟩ := forall₂_mem_right (formatPairs_spec hp) hr
        exact Or.inl ⟨hrec.1, hrec.2.1, q, List.erase_subset _ _ hq,
          hrec.2.2.1, hrec.2.2.2.1, hrec.2.2.2.2.1, hrec.2.2.2.2.2⟩
      · rcases List.mem_singleton.mp hr with rfl
        obtain ⟨_, _, hpair, _⟩ := create_triad_some_spec htr
        exact Or.inr ⟨rfl, t, c, htr, rfl,
          (plookup_mem ha).1, (plookup_mem ha).2,
          (plookup_mem hb).1, (plookup_mem hb).2,
          (plookup_mem hc).1, (plookup_mem hc).2, hpair⟩
  · obtain ⟨precs, hp, hcase⟩ := format_some_spec hfmt
    rcases hcase with ⟨_, rfl⟩ | ⟨t', _, _, _, ht', _⟩
    · obtain ⟨q, hq, hrec⟩ := forall₂_mem_right (formatPairs_spec hp) hr
      exact Or.inl ⟨hrec.1, hrec.2.1, q, hq,
        hrec.2.2.1, hrec.2.2.2.1, hrec.2.2.2.2.1, hrec.2.2.2.2.2⟩
    · exact Option.noConfusion ht'

/-- In a list of participants with no duplicate identifiers, a member is
determined by its identifier. -/
theorem mem_email_unique {users : List Participant}
    (hN : (users.map (·.email)).Nodup) {u v : Participant}
    (hu : u ∈ users) (hv : v ∈ users) (he : u.email = v.email) : u = v :=
  List.inj_on_of_nodup_map hN hu hv he

/-- C4: For every odd-sized duplicate-free active set with a non-empty
well-formed matching, the resolver forms a triad out of one matching pair and
the chosen leftover, and the pair is history-clean for the leftover whenever
any history-clean pair exists (only otherwise does it fall back); in
particular a triad is always formed when at least one pair exists. -/
theorem create_triad_prefers_clean
    (active : List Participant) (hist : HistDict) (matchesL : List Pair)
    (unmatchedL : List String)
    (hN : (active.map (·.email)).Nodup)
    (hWF : WellFormedMatching (build_compatibility_graph active hist) matchesL)
    (hEnum : IsUnmatchedEnum active matchesL unmatchedL)
    (hodd : active.length % 2 = 1)
    (hM : matchesL ≠ []) :
    ∃ u rest, unmatchedL = u :: rest ∧
      ∃ p, p ∈ matchesL ∧
        create_triad matchesL unmatchedL hist = some (p.1, p.2, u) ∧
        ((∃ q ∈ matchesL, CleanFor hist u q) → CleanFor hist u p) := by
  have hodd' : (active.map (·.email)).length % 2 = 1 := by
    rw [List.length_map]; exact hodd
  have huL := unmatched_nonempty hN hWF hEnum hodd'
  cases huL' : unmatchedL with
  | nil => exact absurd huL' huL
  | cons u rest =>
    subst huL'
    obtain ⟨t, ht⟩ := create_triad_isSome matchesL u rest hist hM
    obtain ⟨rest2, hrest2, hpair, hclean⟩ := create_triad_some_spec ht
    injection hrest2 with hu hrest2
    refine ⟨t.2.2, rest, by rw [hu], (t.1, t.2.1), hpair, ?_, hclean⟩
    rw [ht]

/-- Witness for C4: a concrete five-participant run in which only the pair
`a`–`b` is compatible and the leftover `c` has met both, so the fallback
branch fires and still forms the triad. -/
theorem create_triad_prefers_clean_witness :
    ∃ u rest, (["c", "d", "e"] : List String) = u :: rest ∧
      ∃ p, p ∈ [(("a", "b") : Pair)] ∧
        create_triad [("a", "b")] ["c", "d", "e"]
          (transform_sheet_history_to_dict
            [⟨some "a", some "c"⟩, ⟨some "a", some "d"⟩, ⟨some "a", some "e"⟩,
             ⟨some "b", some "c"⟩, ⟨some "b", some "d"⟩, ⟨some "b", some "e"⟩,
             ⟨some "c", some "d"⟩, ⟨some "c", some "e"⟩,
             ⟨some "d", some "e"⟩]) = some (p.1, p.2, u) ∧
        ((∃ q ∈ [(("a", "b") : Pair)],
            CleanFor (transform_sheet_history_to_dict
              [⟨some "a", some "c"⟩, ⟨some "a", some "d"⟩, ⟨some "a", some "e"⟩,
               ⟨some "b", some "c"⟩, ⟨some "b", some "d"⟩, ⟨some "b", some "e"⟩,
               ⟨some "c", some "d"⟩, ⟨some "c", some "e"⟩,
               ⟨some "d", some "e"⟩]) u q) →
          CleanFor (transform_sheet_history_to_dict
            [⟨some "a", some "c"⟩, ⟨some "a", some "d"⟩, ⟨some "a", some "e"⟩,
             ⟨some "b", some "c"⟩, ⟨some "b", some "d"⟩, ⟨some "b", some "e"⟩,
             ⟨some "c", some "d"⟩, ⟨some "c", some "e"⟩,
             ⟨some "d", some "e"⟩]) u p) :=
  create_triad_prefers_clean
    [⟨"a", "A", []⟩, ⟨"b", "B", []⟩, ⟨"c", "C", []⟩, ⟨"d", "D", []⟩,
     ⟨"e", "E", []⟩]
    (transform_sheet_history_to_dict
      [⟨some "a", some "c"⟩, ⟨some "a", some "d"⟩, ⟨some "a", some "e"⟩,
       ⟨some "b", some "c"⟩, ⟨some "b", some "d"⟩, ⟨some "b", some "e"⟩,
       ⟨some "c", some "d"⟩, ⟨some "c", some "e"⟩, ⟨some "d", some "e"⟩])
    [("a", "b")] ["c", "d", "e"] (by decide) (by decide) (by decide)
    (by decide) (by decide)

/-- C8: With zero or one active participants, or an edgeless
compatibility graph, the workflow returns the empty record list (no error):
the matching is empty, no triad forms even at odd count, and the lone
leftover is simply absent from the output. -/
theorem workflow_empty_degenerate
    (active : List Participant) (raw : List HistRow) (matchesL : List Pair)
    (unmatchedL : List String)
    (hWF : WellFormedMatching
      (build_compatibility_graph active (transform_sheet_history_to_dict raw))
      matchesL)
    (hdeg : active.length ≤ 1 ∨
      (build_compatibility_graph active
        (transform_sheet_history_to_dict raw)).edges = []) :
    run_matching_workflow active raw matchesL unmatchedL = some [] := by
  have hedges : (build_compatibility_graph active
      (transform_sheet_history_to_dict raw)).edges = [] := by
    rcases hdeg with hlen | he
    · exact buildEdges_short (by rw [List.length_map]; exact hlen)
    · exact he
  have hL : matchesL = [] := by
    cases hML : matchesL with
    | nil => rfl
    | cons p L' =>
      have hE := (hWF.2.1 p (by rw [hML]; exact List.mem_cons_self _ _)).1
      rcases hE with hm | hm <;>
      · rw [hedges] at hm
        exact absurd hm (List.not_mem_nil _)
  subst hL
  rw [workflow_eq]
  by_cases hodd : active.length % 2 ≠ 0
  · rw [if_pos hodd, create_triad_nil_matches]
    rfl
  · rw [if_neg hodd]
    rfl

/-- Witness for C8: a lone participant yields the empty output. -/
theorem workflow_empty_degenerate_witness :
    run_matching_workflow [⟨"a", "A", []⟩] [] [] ["a"] = some [] :=
  workflow_empty_degenerate [⟨"a", "A", []⟩] [] [] ["a"] (by decide)
    (Or.inl (by decide))

/-- C9: Every person field of every output record is literally one of the
input participant records — identifier, display name and all extra fields
unchanged — and (without duplicate identifiers) it is *the* input record
bearing that identifier. -/
theorem formatter_preserves_records
    (active : List Participant) (raw : List HistRow) (matchesL : List Pair)
    (unmatchedL : List String) (out : List OutputRecord)
    (hN : (active.map (·.email)).Nodup)
    (hOut : run_matching_workflow active raw matchesL unmatchedL = some out) :
    ∀ r ∈ out,
      r.person_a ∈ active ∧ r.person_b ∈ active ∧
      (∀ c, r.person_c = some c → c ∈ active) ∧
      (∀ u ∈ active, u.email = r.person_a.email → r.person_a = u) ∧
      (∀ u ∈ active, u.email = r.person_b.email → r.person_b = u) ∧
      (∀ c, r.person_c = some c → ∀ u ∈ active, u.email = c.email → c = u) := by
  intro r hr
  rcases workflow_records hOut r hr with
    ⟨_, hcn, q, _, hma, _, hmb, _⟩ |
    ⟨_, t, c, _, hcs, hma, _, hmb, _, hmc, _, _⟩
  · refine ⟨hma, hmb, ?_, ?_, ?_, ?_⟩
    · intro c hcc
      rw [hcn] at hcc
      exact Option.noConfusion hcc
    · intro u hu he
      exact mem_email_unique hN hma hu he.symm
    · intro u hu he
      exact mem_email_unique hN hmb hu he.symm
    · intro c hcc
      rw [hcn] at hcc
      exact Option.noConfusion hcc
  · refine ⟨hma, hmb, ?_, ?_, ?_, ?_⟩
    · intro c' hc'
      rw [hcs] at hc'
      injection hc' with hce
      rw [← hce]
      exact hmc
    · intro u hu he
      exact mem_email_unique hN hma hu he.symm
    · intro u hu he
      exact mem_email_unique hN hmb hu he.symm
    · intro c' hc' u hu he
      rw [hcs] at hc'
      injection hc' with hce
      subst hce
      exact mem_email_unique hN hmc hu he.symm

/-- Witness for C9: in a two-participant run, the output pair record carries
the full first input record, extra fields included. -/
theorem formatter_preserves_records_witness :
    (OutputRecord.mk "pair" ⟨"a", "A", [("team", "x")]⟩ ⟨"b", "B", []⟩
        none).person_a ∈
      [(⟨"a", "A", [("team", "x")]⟩ : Participant), ⟨"b", "B", []⟩] :=
  (formatter_preserves_records
    [⟨"a", "A", [("team", "x")]⟩, ⟨"b", "B", []⟩] [] [("a", "b")] []
    [OutputRecord.mk "pair" ⟨"a", "A", [("team", "x")]⟩ ⟨"b", "B", []⟩ none]
    (by decide) (by decide)
    (OutputRecord.mk "pair" ⟨"a", "A", [("team", "x")]⟩ ⟨"b", "B", []⟩ none)
    (by decide)).1

theorem pairRec_disjoint {users : List Participant} {p q : Pair}
    {r s : OutputRecord} (hr : PairRec users p r) (hs : PairRec users q s)
    (hd : PairDisj p q) : ∀ e ∈ recordEmails r, e ∉ recordEmails s := by
  rw [pairRec_recordEmails hr, pairRec_recordEmails hs]
  intro e he hmem
  simp only [List.mem_cons, List.not_mem_nil, or_false] at he hmem
  rcases he with rfl | rfl
  · rcases hmem with h | h
    · exact hd.1 h
    · exact hd.2.1 h
  · rcases hmem with h | h
    · exact hd.2.2.1 h
    · exact hd.2.2.2 h

/-- C3: Every participant identifier appears in at most one output
record: the email sets of distinct output records are pairwise disjoint (in
particular the triad's three members appear in no pair record). -/
theorem workflow_output_disjoint
    (active : List Participant) (raw : List HistRow) (matchesL : List Pair)
    (unmatchedL : List String) (out : List OutputRecord)
    (hN : (active.map (·.email)).Nodup)
    (hWF : WellFormedMatching
      (build_compatibility_graph active (transform_sheet_history_to_dict raw))
      matchesL)
    (hEnum : IsUnmatchedEnum active matchesL unmatchedL)
    (hOut : run_matching_workflow active raw matchesL unmatchedL = some out) :
    out.Pairwise (fun r s => ∀ e ∈ recordEmails r, e ∉ recordEmails s) := by
  obtain ⟨hnodup, hedge, hdisj⟩ := hWF
  rcases workflow_some_cases hOut with ⟨t, htr, _, hfmt⟩ | ⟨_, hfmt⟩
  · obtain ⟨rest, huL, hpmem, _⟩ := create_triad_some_spec htr
    have hsorted : sortPair (t.1, t.2.1) = (t.1, t.2.1) :=
      ((hedge _ hpmem).2).symm
    rw [hsorted] at hfmt
    obtain ⟨precs, hp, hcase⟩ := format_some_spec hfmt
    rcases hcase with ⟨hno, _⟩ | ⟨t', a, b, c, ht', ha, hb, hc, rfl⟩
    · exact Option.noConfusion hno
    injection ht' with ht'
    subst ht'
    have hF₂ := formatPairs_spec hp
    have herasedisj : (matchesL.erase (t.1, t.2.1)).Pairwise PairDisj :=
      List.Pairwise.sublist (List.erase_sublist _ _) hdisj
    refine List.pairwise_append.mpr
      ⟨forall₂_pairwise hF₂ herasedisj
          (fun q1 q2 x y hx hy hd => pairRec_disjoint hx hy hd),
        List.pairwise_singleton _ _, ?_⟩
    intro r hr s hs
    rcases List.mem_singleton.mp hs with rfl
    obtain ⟨q, hq, hrec⟩ := forall₂_mem_right hF₂ hr
    have hre : recordEmails r = [q.1, q.2] := pairRec_recordEmails hrec
    have hrecE : recordEmails (OutputRecord.mk "triad" a b (some c)) =
        [t.1, t.2.1, t.2.2] := by
      simp [recordEmails, (plookup_mem ha).2, (plookup_mem hb).2,
        (plookup_mem hc).2]
    have hqL : q ∈ matchesL := List.erase_subset _ _ hq
    have hqne : q ≠ (t.1, t.2.1) := by
      rintro rfl
      exact ((List.Nodup.mem_erase_iff hnodup).mp hq).1 rfl
    have hdq : PairDisj q (t.1, t.2.1) :=
      (hdisj.forall PairDisj_symmetric) hqL hpmem hqne
    have hu : t.2.2 ∉ matchedEmails matchesL :=
      (hEnum.2.1 t.2.2 (by rw [huL]; exact List.mem_cons_self _ _)).2
    have hq1 : q.1 ∈ matchedEmails matchesL :=
      mem_matchedEmails.mpr ⟨q, hqL, Or.inl rfl⟩
    have hq2 : q.2 ∈ matchedEmails matchesL :=
      mem_matchedEmails.mpr ⟨q, hqL, Or.inr rfl⟩
    rw [hre, hrecE]
    intro e he hmem
    simp only [List.mem_cons, List.not_mem_nil, or_false] at he hmem
    rcases he with rfl | rfl
    · rcases hmem with h | h | h
      · exact hdq.1 h
      · exact hdq.2.1 h
      · exact hu (h ▸ hq1)
    · rcases hmem with h | h | h
      · exact hdq.2.2.1 h
      · exact hdq.2.2.2 h
      · exact hu (h ▸ hq2)
  · obtain ⟨precs, hp, hcase⟩ := format_some_spec hfmt
    rcases hcase with ⟨_, rfl⟩ | ⟨t', _, _, _, ht', _⟩
    · exact forall₂_pairwise (formatPairs_spec hp) hdisj
        (fun q1 q2 x y hx hy hd => pairRec_disjoint hx hy hd)
    · exact Option.noConfusion ht'

/-- Witness for C3: a concrete three-participant odd run whose single output
record list is pairwise disjoint. -/
theorem workflow_output_disjoint_witness :
    List.Pairwise (fun r s => ∀ e ∈ recordEmails r, e ∉ recordEmails s)
      [OutputRecord.mk "triad" ⟨"a", "A", []⟩ ⟨"b", "B", []⟩
        (some ⟨"c", "C", []⟩)] :=
  workflow_output_disjoint
    [⟨"a", "A", []⟩, ⟨"b", "B", []⟩, ⟨"c", "C", []⟩] [] [("a", "b")] ["c"]
    [OutputRecord.mk "triad" ⟨"a", "A", []⟩ ⟨"b", "B", []⟩
      (some ⟨"c", "C", []⟩)]
    (by decide) (by decide) (by decide) (by decide)

/-- C10: In every triad record the workflow produces, person_c is the
leftover (unmatched by every matching pair, hence distinct from persons a and
b), persons a and b are the members of the matching pair absorbed into the
triad, and that pair is removed from the surviving pair list. -/
theorem triad_roles_correct
    (active : List Participant) (raw : List HistRow) (matchesL : List Pair)
    (unmatchedL : List String) (out : List OutputRecord)
    (hWF : WellFormedMatching
      (build_compatibility_graph active (transform_sheet_history_to_dict raw))
      matchesL)
    (hEnum : IsUnmatchedEnum active matchesL unmatchedL)
    (hOut : run_matching_workflow active raw matchesL unmatchedL = some out) :
    ∀ r ∈ out, r.match_type = "triad" →
      ∃ t, create_triad matchesL unmatchedL
          (transform_sheet_history_to_dict raw) = some t ∧
        r.person_a.email = t.1 ∧ r.person_b.email = t.2.1 ∧
        (∀ c, r.person_c = some c → c.email = t.2.2) ∧
        (t.1, t.2.1) ∈ matchesL ∧
        t.2.2 ∉ matchedEmails matchesL ∧
        (t.1, t.2.1) ∉ matchesL.erase (sortPair (t.1, t.2.1)) ∧
        t.2.2 ≠ t.1 ∧ t.2.2 ≠ t.2.1 := by
  intro r hr hrt
  rcases workflow_records hOut r hr with
    ⟨hpair, _⟩ | ⟨_, t, c, htr, hcs, _, ha, _, hb, _, hcE, hpmem⟩
  · rw [hpair] at hrt
    exact absurd hrt (by decide)
  · obtain ⟨rest, huL, _, _⟩ := create_triad_some_spec htr
    have hu : t.2.2 ∉ matchedEmails matchesL :=
      (hEnum.2.1 t.2.2 (by rw [huL]; exact List.mem_cons_self _ _)).2
    have h1 : t.1 ∈ matchedEmails matchesL :=
      mem_matchedEmails.mpr ⟨(t.1, t.2.1), hpmem, Or.inl rfl⟩
    have h2 : t.2.1 ∈ matchedEmails matchesL :=
      mem_matchedEmails.mpr ⟨(t.1, t.2.1), hpmem, Or.inr rfl⟩
    refine ⟨t, htr, ha, hb, ?_, hpmem, hu, ?_, ?_, ?_⟩
    · intro c' hc'
      rw [hcs] at hc'
      injection hc' with hce
      rw [← hce]
      exact hcE
    · have hsorted : sortPair (t.1, t.2.1) = (t.1, t.2.1) :=
        ((hWF.2.1 _ hpmem).2).symm
      rw [hsorted]
      intro hmem
      exact ((List.Nodup.mem_erase_iff hWF.1).mp hmem).1 rfl
    · intro heq
      exact hu (heq ▸ h1)
    · intro heq
      exact hu (heq ▸ h2)

/-- Witness for C10: the role assignment on a concrete three-participant
run. -/
theorem triad_roles_correct_witness :
    ∃ t, create_triad [("a", "b")] ["c"] (transform_sheet_history_to_dict [])
        = some t ∧
      (OutputRecord.mk "triad" ⟨"a", "A", []⟩ ⟨"b", "B", []⟩
          (some ⟨"c", "C", []⟩)).person_a.email = t.1 ∧
      (OutputRecord.mk "triad" ⟨"a", "A", []⟩ ⟨"b", "B", []⟩
          (some ⟨"c", "C", []⟩)).person_b.email = t.2.1 ∧
      (∀ c, (OutputRecord.mk "triad" ⟨"a", "A", []⟩ ⟨"b", "B", []⟩
          (some ⟨"c", "C", []⟩)).person_c = some c → c.email = t.2.2) ∧
      (t.1, t.2.1) ∈ [(("a", "b") : Pair)] ∧
      t.2.2 ∉ matchedEmails [("a", "b")] ∧
      (t.1, t.2.1) ∉ ([(("a", "b") : Pair)]).erase (sortPair (t.1, t.2.1)) ∧
      t.2.2 ≠ t.1 ∧ t.2.2 ≠ t.2.1 :=
  triad_roles_correct
    [⟨"a", "A", []⟩, ⟨"b", "B", []⟩, ⟨"c", "C", []⟩] [] [("a", "b")] ["c"]
    [OutputRecord.mk "triad" ⟨"a", "A", []⟩ ⟨"b", "B", []⟩
      (some ⟨"c", "C", []⟩)]
    (by decide) (by decide) (by decide)
    (OutputRecord.mk "triad" ⟨"a", "A", []⟩ ⟨"b", "B", []⟩
      (some ⟨"c", "C", []⟩))
    (by decide) (by decide)

/-- C6 amended: History exclusivity of the output: in every output
record the person_a–person_b pair has no history entry in either direction;
and the triad's third member is history-clean with both pair members whenever
some history-clean pair existed (the clean branch); the fallback branch may
repeat a connection, and no property of the output record marks it. -/
theorem output_history_exclusive
    (active : List Participant) (raw : List HistRow) (matchesL : List Pair)
    (unmatchedL : List String) (out : List OutputRecord)
    (hWF : WellFormedMatching
      (build_compatibility_graph active (transform_sheet_history_to_dict raw))
      matchesL)
    (hOut : run_matching_workflow active raw matchesL unmatchedL = some out) :
    ∀ r ∈ out,
      r.person_b.email ∉
        histGet (transform_sheet_history_to_dict raw) r.person_a.email ∧
      r.person_a.email ∉
        histGet (transform_sheet_history_to_dict raw) r.person_b.email ∧
      (∀ c, r.person_c = some c →
        (∃ q ∈ matchesL,
          CleanFor (transform_sheet_history_to_dict raw) c.email q) →
        c.email ∉
          histGet (transform_sheet_history_to_dict raw) r.person_a.email ∧
        r.person_a.email ∉
          histGet (transform_sheet_history_to_dict raw) c.email ∧
        c.email ∉
          histGet (transform_sheet_history_to_dict raw) r.person_b.email ∧
        r.person_b.email ∉
          histGet (transform_sheet_history_to_dict raw) c.email) := by
  intro r hr
  have hsymm := transform_symm raw
  have hpairex : ∀ q ∈ matchesL,
      q.2 ∉ histGet (transform_sheet_history_to_dict raw) q.1 ∧
      q.1 ∉ histGet (transform_sheet_history_to_dict raw) q.2 := by
    intro q hq
    rcases (hWF.2.1 q hq).1 with hm | hm
    · have h1 := (mem_of_mem_buildEdges hm).2.2
      exact ⟨h1, fun hmem => h1 ((hsymm q.1 q.2).mp hmem)⟩
    · have h1 := (mem_of_mem_buildEdges hm).2.2
      exact ⟨fun hmem => h1 ((hsymm q.2 q.1).mp hmem), h1⟩
  rcases workflow_records hOut r hr with
    ⟨_, hcn, q, hq, _, ha, _, hb⟩ |
    ⟨_, t, c, htr, hcs, _, ha, _, hb, _, hcE, hpmem⟩
  · obtain ⟨h1, h2⟩ := hpairex q hq
    rw [ha, hb]
    refine ⟨h1, h2, ?_⟩
    intro c hcc
    rw [hcn] at hcc
    exact Option.noConfusion hcc
  · obtain ⟨h1, h2⟩ := hpairex (t.1, t.2.1) hpmem
    rw [ha, hb]
    refine ⟨h1, h2, ?_⟩
    intro c' hc' hex
    rw [hcs] at hc'
    injection hc' with hce
    subst hce
    rw [hcE] at hex ⊢
    obtain ⟨rest, huL, _, hcleanpref⟩ := create_triad_some_spec htr
    obtain ⟨hcl1, hcl2⟩ := hcleanpref hex
    refine ⟨?_, hcl1, ?_, hcl2⟩
    · exact fun hmem => hcl1 ((hsymm t.2.2 t.1).mp hmem)
    · exact fun hmem => hcl2 ((hsymm t.2.2 t.2.1).mp hmem)

/-- Witness for C6's amended theorem: on a concrete clean-branch run, the
triad record is history-exclusive in all directions. -/
theorem output_history_exclusive_witness :
    "b" ∉ histGet (transform_sheet_history_to_dict [⟨some "d", some "e"⟩]) "a" ∧
    "a" ∉ histGet (transform_sheet_history_to_dict [⟨some "d", some "e"⟩]) "b" ∧
    (∀ c, (OutputRecord.mk "triad" ⟨"a", "A", []⟩ ⟨"b", "B", []⟩
        (some ⟨"c", "C", []⟩)).person_c = some c →
      (∃ q ∈ [(("a", "b") : Pair)],
        CleanFor (transform_sheet_history_to_dict [⟨some "d", some "e"⟩])
          c.email q) →
      c.email ∉ histGet (transform_sheet_history_to_dict
        [⟨some "d", some "e"⟩]) "a" ∧
      "a" ∉ histGet (transform_sheet_history_to_dict
        [⟨some "d", some "e"⟩]) c.email ∧
      c.email ∉ histGet (transform_sheet_history_to_dict
        [⟨some "d", some "e"⟩]) "b" ∧
      "b" ∉ histGet (transform_sheet_history_to_dict
        [⟨some "d", some "e"⟩]) c.email) := by
  have h := output_history_exclusive
    [⟨"a", "A", []⟩, ⟨"b", "B", []⟩, ⟨"c", "C", []⟩] [⟨some "d", some "e"⟩]
    [("a", "b")] ["c"]
    [OutputRecord.mk "triad" ⟨"a", "A", []⟩ ⟨"b", "B", []⟩
      (some ⟨"c", "C", []⟩)]
    (by decide) (by decide)
    (OutputRecord.mk "triad" ⟨"a", "A", []⟩ ⟨"b", "B", []⟩
      (some ⟨"c", "C", []⟩))
    (by decide)
  exact h

/-- Counterexample for C6's distinguishability conjunct: two runs on the same
participants — one whose triad came from the history-clean branch (empty
history) and one whose triad came from the fallback branch (the leftover has
met both pair members) — produce *identical* output record lists, so no
property of the output record can distinguish a fallback triad; the code
attaches no fallback flag. -/
theorem fallback_not_distinguishable :
    find_maximum_matching (build_compatibility_graph
      [⟨"a", "A", []⟩, ⟨"b", "B", []⟩, ⟨"c", "C", []⟩]
      (transform_sheet_history_to_dict [])) = [("a", "b")] ∧
    find_maximum_matching (build_compatibility_graph
      [⟨"a", "A", []⟩, ⟨"b", "B", []⟩, ⟨"c", "C", []⟩]
      (transform_sheet_history_to_dict
        [⟨some "c", some "a"⟩, ⟨some "c", some "b"⟩])) = [("a", "b")] ∧
    IsUnmatchedEnum [⟨"a", "A", []⟩, ⟨"b", "B", []⟩, ⟨"c", "C", []⟩]
      [("a", "b")] ["c"] ∧
    (∃ q ∈ [(("a", "b") : Pair)],
      CleanFor (transform_sheet_history_to_dict []) "c" q) ∧
    (∀ q ∈ [(("a", "b") : Pair)],
      ¬ CleanFor (transform_sheet_history_to_dict
        [⟨some "c", some "a"⟩, ⟨some "c", some "b"⟩]) "c" q) ∧
    run_matching_workflow [⟨"a", "A", []⟩, ⟨"b", "B", []⟩, ⟨"c", "C", []⟩]
        [] [("a", "b")] ["c"] =
      run_matching_workflow [⟨"a", "A", []⟩, ⟨"b", "B", []⟩, ⟨"c", "C", []⟩]
        [⟨some "c", some "a"⟩, ⟨some "c", some "b"⟩] [("a", "b")] ["c"] := by
  decide

/-- Counterexample for C5: on one concrete input (five participants, only
`a`–`b` compatible — that matching is exactly the solver's output and is well
formed), two valid enumerations of the unmatched set `{c, d, e}` make
`create_triad` absorb different participants and the workflow produce
different outputs, so the choice is neither stable across runs (Python set
order is hash-randomized) nor "first by input order". -/
theorem triad_choice_unstable :
    IsUnmatchedEnum
      [⟨"a", "A", []⟩, ⟨"b", "B", []⟩, ⟨"c", "C", []⟩, ⟨"d", "D", []⟩,
       ⟨"e", "E", []⟩] [("a", "b")] ["c", "d", "e"] ∧
    IsUnmatchedEnum
      [⟨"a", "A", []⟩, ⟨"b", "B", []⟩, ⟨"c", "C", []⟩, ⟨"d", "D", []⟩,
       ⟨"e", "E", []⟩] [("a", "b")] ["d", "c", "e"] ∧
    WellFormedMatching (build_compatibility_graph
      [⟨"a", "A", []⟩, ⟨"b", "B", []⟩, ⟨"c", "C", []⟩, ⟨"d", "D", []⟩,
       ⟨"e", "E", []⟩]
      (transform_sheet_history_to_dict
        [⟨some "a", some "c"⟩, ⟨some "a", some "d"⟩, ⟨some "a", some "e"⟩,
         ⟨some "b", some "c"⟩, ⟨some "b", some "d"⟩, ⟨some "b", some "e"⟩,
         ⟨some "c", some "d"⟩, ⟨some "c", some "e"⟩, ⟨some "d", some "e"⟩]))
      [("a", "b")] ∧
    find_maximum_matching (build_compatibility_graph
      [⟨"a", "A", []⟩, ⟨"b", "B", []⟩, ⟨"c", "C", []⟩, ⟨"d", "D", []⟩,
       ⟨"e", "E", []⟩]
      (transform_sheet_history_to_dict
        [⟨some "a", some "c"⟩, ⟨some "a", some "d"⟩, ⟨some "a", some "e"⟩,
         ⟨some "b", some "c"⟩, ⟨some "b", some "d"⟩, ⟨some "b", some "e"⟩,
         ⟨some "c", some "d"⟩, ⟨some "c", some "e"⟩, ⟨some "d", some "e"⟩]))
      = [("a", "b")] ∧
    create_triad [("a", "b")] ["c", "d", "e"]
        (transform_sheet_history_to_dict
          [⟨some "a", some "c"⟩, ⟨some "a", some "d"⟩, ⟨some "a", some "e"⟩,
           ⟨some "b", some "c"⟩, ⟨some "b", some "d"⟩, ⟨some "b", some "e"⟩,
           ⟨some "c", some "d"⟩, ⟨some "c", some "e"⟩, ⟨some "d", some "e"⟩])
      ≠ create_triad [("a", "b")] ["d", "c", "e"]
        (transform_sheet_history_to_dict
          [⟨some "a", some "c"⟩, ⟨some "a", some "d"⟩, ⟨some "a", some "e"⟩,
           ⟨some "b", some "c"⟩, ⟨some "b", some "d"⟩, ⟨some "b", some "e"⟩,
           ⟨some "c", some "d"⟩, ⟨some "c", some "e"⟩, ⟨some "d", some "e"⟩]) ∧
    run_matching_workflow
        [⟨"a", "A", []⟩, ⟨"b", "B", []⟩, ⟨"c", "C", []⟩, ⟨"d", "D", []⟩,
         ⟨"e", "E", []⟩]
        [⟨some "a", some "c"⟩, ⟨some "a", some "d"⟩, ⟨some "a", some "e"⟩,
         ⟨some "b", some "c"⟩, ⟨some "b", some "d"⟩, ⟨some "b", some "e"⟩,
         ⟨some "c", some "d"⟩, ⟨some "c", some "e"⟩, ⟨some "d", some "e"⟩]
        [("a", "b")] ["c", "d", "e"]
      ≠ run_matching_workflow
        [⟨"a", "A", []⟩, ⟨"b", "B", []⟩, ⟨"c", "C", []⟩, ⟨"d", "D", []⟩,
         ⟨"e", "E", []⟩]
        [⟨some "a", some "c"⟩, ⟨some "a", some "d"⟩, ⟨some "a", some "e"⟩,
         ⟨some "b", some "c"⟩, ⟨some "b", some "d"⟩, ⟨some "b", some "e"⟩,
         ⟨some "c", some "d"⟩, ⟨some "c", some "e"⟩, ⟨some "d", some "e"⟩]
        [("a", "b")] ["d", "c", "e"] := by
  decide

/-- C5 amended: The absorbed participant is the head of the (otherwise
unspecified) enumeration of the unmatched set, and the absorbed pair is one
of the matching pairs; which unmatched participant is chosen depends on the
set's iteration order, not on a documented input-order rule. -/
theorem triad_choice_in_unmatched
    (matchesL : List Pair) (unmatchedL : List String) (hist : HistDict)
    (t : String × String × String)
    (ht : create_triad matchesL unmatchedL hist = some t) :
    ∃ rest, unmatchedL = t.2.2 :: rest ∧ (t.1, t.2.1) ∈ matchesL := by
  obtain ⟨rest, h1, h2, _⟩ := create_triad_some_spec ht
  exact ⟨rest, h1, h2⟩

/-- Witness for C5's amended theorem at a concrete resolver call. -/
theorem triad_choice_in_unmatched_witness :
    ∃ rest, ["c", "d"] = (("a", "b", "c") : String × String × String).2.2 ::
        rest ∧
      ((("a", "b", "c") : String × String × String).1,
        (("a", "b", "c") : String × String × String).2.1) ∈
          [(("a", "b") : Pair)] :=
  triad_choice_in_unmatched [("a", "b")] ["c", "d"] [] ("a", "b", "c")
    (by decide)
